import Mathlib

/-!
Shallow embedding of the spreadsheet-translation pipeline of this
repository: `findColumnByHeader`, `resolveColumnsForSingleSheet`, the
handling of `translateBatch` results, and `processFile`'s row
collection, deduplication, batched translation loop with its
translation cache and progress reporting, and the writer step
(fileProcessor.js), together with the terminal job-status update of
server.js.  The external language-model call is modelled as an oracle
giving, per batch, either a thrown error or the parsed JSON array that
`translateBatch` would return.
-/

/-- JavaScript values as they occur in this pipeline: strings, numbers,
booleans, null, undefined, arrays and objects (the possible outputs of
`JSON.parse`, plus the `undefined` that property access can produce). -/
inductive JValue where
  | str (s : String)
  | num (n : Int)
  | jbool (b : Bool)
  | null
  | undefined
  | arr (elems : List JValue)
  | obj (fields : List (String × JValue))

/-- A spreadsheet cell as the xlsx library exposes it: a type tag `t`
(`"s"` for text) and a value `v`. -/
structure Cell where
  t : String
  v : JValue

/-- A decoded `!ref` range: start row/column and end row/column. -/
structure Range where
  sr : Nat
  sc : Nat
  er : Nat
  ec : Nat

/-- A worksheet: a sparse grid of cells addressed by (column, row) plus
the declared data range `worksheet["!ref"]`, absent when the sheet has
no declared extent. -/
@[ext]
structure Worksheet where
  cells : Nat → Nat → Option Cell
  ref : Option Range

/-- `getCell` of fileProcessor.js: the cell at column `c`, row `r`. -/
def getCell (ws : Worksheet) (c r : Nat) : Option Cell :=
  ws.cells c r

/-- JavaScript `String.prototype.trim`: drop leading and trailing
whitespace. -/
def jsTrim (s : String) : String :=
  ⟨((s.data.dropWhile Char.isWhitespace).reverse.dropWhile Char.isWhitespace).reverse⟩

/-- JavaScript `String.prototype.toLowerCase` (on the ASCII letters
this pipeline compares). -/
def jsToLower (s : String) : String :=
  ⟨s.data.map Char.toLower⟩

/-- One collected header of `findColumnByHeader`: the trimmed text, its
lower-cased form and the column it came from. -/
structure Header where
  text : String
  lower : String
  col : Nat

/-- The header texts `findColumnByHeader` collects from the header row:
for each column of the declared range, the cell's trimmed value when the
cell exists, holds a string, and that string is non-empty after
trimming. -/
def headerTexts (ws : Worksheet) (range : Range) : List Header :=
  (List.range' range.sc (range.ec + 1 - range.sc)).filterMap fun c =>
    match getCell ws c range.sr with
    | some cell =>
      match cell.v with
      | .str s =>
        let raw := jsTrim s
        if raw = "" then none else some ⟨raw, jsToLower raw, c⟩
      | _ => none
    | none => none

/-- A header-name candidate of `findColumnByHeader`: an exact string
(matched case-insensitively) or a pattern (a regular expression in the
source, embedded as its decision function on the raw header text). -/
inductive Candidate where
  | cstr (s : String)
  | cre (test : String → Bool)

/-- `findColumnByHeader` of fileProcessor.js: `null` when the sheet has
no `!ref`; otherwise pass 1 scans the exact string candidates in order,
returning the column of the first header whose lower-cased trimmed text
equals the lower-cased candidate; if pass 1 finds nothing, pass 2 scans
the pattern candidates in order against the raw header text. -/
def findColumnByHeader (ws : Worksheet) (candidates : List Candidate) : Option Nat :=
  match ws.ref with
  | none => none
  | some range =>
    let headers := headerTexts ws range
    match candidates.findSome? (fun w =>
        match w with
        | .cstr s => (headers.find? (fun h => h.lower == jsToLower s)).map Header.col
        | .cre _ => none) with
    | some c => some c
    | none =>
      candidates.findSome? (fun w =>
        match w with
        | .cre re => (headers.find? (fun h => re h.text)).map Header.col
        | .cstr _ => none)

/-- A JavaScript word character, as in the regex class `\w`. -/
def isWordChar (ch : Char) : Bool :=
  ch.isAlpha || ch.isDigit || ch == '_'

/-- The pattern `/^Translated string\b/i` of
`resolveColumnsForSingleSheet`: the text starts (case-insensitively)
with `Translated string` followed by a word boundary. -/
def translatedStringRe (text : String) : Bool :=
  let lower := (jsToLower text).data
  let pat := "translated string".data
  pat.isPrefixOf lower &&
    (match lower.drop pat.length with
     | [] => true
     | ch :: _ => !isWordChar ch)

/-- The source-column candidates of `resolveColumnsForSingleSheet`. -/
def sourceCandidates : List Candidate :=
  [.cstr "Field Value", .cstr "Base", .cstr "Source", .cstr "Text"]

/-- The target-column candidates of `resolveColumnsForSingleSheet`. -/
def targetCandidates : List Candidate :=
  [.cre translatedStringRe, .cstr "Translation", .cstr "Translated", .cstr "Norsk"]

/-- `resolveColumnsForSingleSheet` of fileProcessor.js: source column by
header candidates with fallback index 1 (column B), target column with
fallback index 3 (column D). -/
def resolveColumnsForSingleSheet (ws : Worksheet) : Nat × Nat :=
  ((findColumnByHeader ws sourceCandidates).getD 1,
   (findColumnByHeader ws targetCandidates).getD 3)

/-- A Translatable Row of `processFile`: the row index, the trimmed
original text, the target column, and the `translated` property that
step 3 later sets (absent, i.e. `undefined`, until then). -/
structure RowT where
  row : Nat
  original : String
  targetColIndex : Nat
  translated : JValue := .undefined

/-- The body of `processFile`'s row-collection loop for one row `r`:
the row qualifies when the source-column cell exists, has type tag
`"s"`, holds a string value, and that string is non-empty after
trimming; a qualifying row yields one Translatable Row. -/
def collectRow (ws : Worksheet) (src tgt r : Nat) : List RowT :=
  match getCell ws src r with
  | some cell =>
    match cell.v with
    | .str s =>
      if cell.t = "s" ∧ jsTrim s ≠ "" then
        [{ row := r, original := jsTrim s, targetColIndex := tgt }]
      else []
    | _ => []
  | none => []

/-- The row-collection loop of `processFile`
(`for (r = range.s.r + 1; r <= range.e.r; r++)`), with the number of
remaining iterations made explicit as the first argument. -/
def collectRowsGo (ws : Worksheet) (src tgt : Nat) : Nat → Nat → List RowT
  | 0, _ => []
  | fuel + 1, r => collectRow ws src tgt r ++ collectRowsGo ws src tgt fuel (r + 1)

/-- Step 1 of `processFile`: collect the Translatable Rows from the row
after the header (`range.s.r + 1`) to the last declared row
(`range.e.r`), which is `range.er + 1 - (range.sr + 1)` iterations. -/
def collectRows (ws : Worksheet) (range : Range) (src tgt : Nat) : List RowT :=
  collectRowsGo ws src tgt (range.er + 1 - (range.sr + 1)) (range.sr + 1)

/-- Insertion into a JavaScript `Set`: append the element unless it is
already present. -/
def insertUnique (acc : List String) (s : String) : List String :=
  if s ∈ acc then acc else acc ++ [s]

/-- `Array.from(uniqueTexts)` of `processFile`: the originals of the
Translatable Rows, deduplicated, in first-seen order. -/
def uniqueList (rows : List RowT) : List String :=
  rows.foldl (fun acc it => insertUnique acc it.original) []

/-- The fixed batch size of `processFile`. -/
def batchSize : Nat := 100

/-- The slicing loop of `processFile`
(`for (i = 0; i < uniqueList.length; i += batchSize)`), with an upper
bound on the number of remaining iterations made explicit as fuel; each
iteration emits `l.slice(i, i + batchSize)` paired with its start
index. -/
def chunksFromGo : Nat → List String → Nat → List (Nat × List String)
  | 0, _, _ => []
  | fuel + 1, l, i =>
    if l = [] then []
    else (i, l.take batchSize) :: chunksFromGo fuel (l.drop batchSize) (i + batchSize)

/-- The batches of `processFile`'s loop, each paired with its start
index `i`: `uniqueList.slice(i, i + batchSize)` for `i = 0, 100, ...`. -/
def chunksFrom (l : List String) (i : Nat) : List (Nat × List String) :=
  chunksFromGo l.length l i

/-- The translation cache, a JavaScript object: ordered key-value pairs
with distinct keys. -/
abbrev Cache : Type := List (String × JValue)

/-- Property read `cache[k]`: the value at key `k`, `undefined` (none)
when absent. -/
def getk (cache : Cache) (k : String) : Option JValue :=
  (cache.find? (fun p => p.1 == k)).map Prod.snd

/-- Property write `cache[k] = v`: overwrite the value in place when the
key exists, append the pair otherwise. -/
def setk (cache : Cache) (k : String) (v : JValue) : Cache :=
  if (cache.find? (fun p => p.1 == k)).isSome
  then cache.map (fun p => if p.1 == k then (k, v) else p)
  else cache ++ [(k, v)]

/-- JavaScript truthiness of a value. -/
def jsTruthy : JValue → Bool
  | .str s => s ≠ ""
  | .num n => n ≠ 0
  | .jbool b => b
  | .null => false
  | .undefined => false
  | .arr _ => true
  | .obj _ => true

/-- The JavaScript expression `x || ""`. -/
def jsOr (v : JValue) : JValue :=
  if jsTruthy v then v else .str ""

/-- The expression `translationObj.key.trim()` of `processFile`'s
cache-update step: it produces a trimmed string exactly when the entry
is an object whose `key` field holds a string; on every other entry
(bare string, number, null, array, object without a string `key`) the
expression throws a TypeError, modelled as `none`. -/
def keyTrim : JValue → Option String
  | .obj fields =>
    match fields.find? (fun p => p.1 == "key") with
    | some (_, .str s) => some (jsTrim s)
    | _ => none
  | _ => none

/-- The expression `translationObj.value`: the `value` field of the
object, `undefined` when absent. -/
def valueField : JValue → JValue
  | .obj fields =>
    match fields.find? (fun p => p.1 == "value") with
    | some (_, v) => v
    | _ => .undefined
  | _ => .undefined

/-- The cache update after a successful batch
(`translatedBatch.forEach(...)`): store
`cache[translationObj.key.trim()] = translationObj.value` for each
entry in order; a thrown TypeError (non-string `key`) stops the
iteration, keeping the updates made so far and carrying the error. -/
def updateCache (cache : Cache) : List JValue → Cache × Option String
  | [] => (cache, none)
  | e :: rest =>
    match keyTrim e with
    | some k => updateCache (setk cache k (valueField e)) rest
    | none => (cache, some "TypeError: translationObj.key is not a string")

/-- `Math.round((p / n) * 100)` on the exact rationals: round half up of
`100 * p / n`, written with natural division. -/
def progressOf (p n : Nat) : Nat :=
  (200 * p + n) / (2 * n)

/-- The observable state of one `processFile` run: the batches sent to
the translation service, the translation cache, and the progress values
reported to the job-status store, in order. -/
structure RunState where
  requests : List (List String)
  cache : Cache
  updates : List Nat

/-- The state at the start of the batch loop: nothing sent, empty cache,
no progress reported. -/
def initState : RunState :=
  { requests := [], cache := [], updates := [] }

/-- The batch loop of `processFile` over the batches with their start
indices, driven by `oracle`, the per-batch outcome of `translateBatch`
(a thrown error, or the parsed JSON array).  On a thrown batch every
string of the batch is assigned an empty-string cache entry and the loop
`continue`s, skipping the progress update.  On a returned array the
cache-update step runs (its TypeError aborts the whole loop), then
progress `round(100 * min(n, i + batchSize) / n)` is reported.  The
second component is the error that escaped `processFile`, if any. -/
def processBatches (oracle : Nat → Except String (List JValue)) (n : Nat) :
    List (Nat × List String) → RunState → RunState × Option String
  | [], st => (st, none)
  | (i, b) :: rest, st =>
    let st1 : RunState := { st with requests := st.requests ++ [b] }
    match oracle i with
    | .error _ =>
      processBatches oracle n rest
        { st1 with cache := b.foldl (fun c s => setk c s (.str "")) st1.cache }
    | .ok entries =>
      match updateCache st1.cache entries with
      | (c2, some msg) => ({ st1 with cache := c2 }, some msg)
      | (c2, none) =>
        processBatches oracle n rest
          { st1 with
            cache := c2
            updates := st1.updates ++ [progressOf (min n (i + batchSize)) n] }

/-- Step 3 of `processFile`: set each row's `translated` property to
`translationCache[item.original] || ""`. -/
def assignTranslations (cache : Cache) (rows : List RowT) : List RowT :=
  rows.map fun it => { it with translated := jsOr ((getk cache it.original).getD .undefined) }

/-- One write of step 4: set the cell at `(item.targetColIndex,
item.row)` to the text-typed value `item.translated || ""`. -/
def writeCell (ws : Worksheet) (it : RowT) : Worksheet :=
  { ws with
    cells := fun c r =>
      if c = it.targetColIndex ∧ r = it.row then some ⟨"s", jsOr it.translated⟩
      else ws.cells c r }

/-- Step 4 of `processFile`: write every row's translation into its
target cell, in row-list order. -/
def writeRows (ws : Worksheet) (rows : List RowT) : Worksheet :=
  rows.foldl writeCell ws

/-- The writer step (steps 3 and 4 of `processFile` together): assign
`cache[original] || ""` to each Translatable Row, then write the cells. -/
def writerStep (ws : Worksheet) (cache : Cache) (rows : List RowT) : Worksheet :=
  writeRows ws (assignTranslations cache rows)

/-- The Translatable Rows a run of `processFile` collects: step 1
applied at the resolved source and target columns. -/
def pipelineRows (ws : Worksheet) (range : Range) : List RowT :=
  collectRows ws range (resolveColumnsForSingleSheet ws).1 (resolveColumnsForSingleSheet ws).2

/-- The deduplicated unique texts of a run of `processFile`. -/
def pipelineUnique (ws : Worksheet) (range : Range) : List String :=
  uniqueList (pipelineRows ws range)

/-- The batches (with start indices) of a run of `processFile`. -/
def pipelineBatches (ws : Worksheet) (range : Range) : List (Nat × List String) :=
  chunksFrom (pipelineUnique ws range) 0

/-- The batch loop of a run of `processFile`, started from the initial
state. -/
def pipelineLoop (ws : Worksheet) (range : Range)
    (oracle : Nat → Except String (List JValue)) : RunState × Option String :=
  processBatches oracle (pipelineUnique ws range).length (pipelineBatches ws range) initState

/-- The `processFile` pipeline after the workbook is read, as one run:
fail when the first sheet has no declared data range; otherwise resolve
the columns, collect the Translatable Rows, deduplicate, run the batch
loop, and (when no error escaped the loop) apply the writer step.
Returns the observable run state and the outcome. -/
def runPipeline (ws : Worksheet) (oracle : Nat → Except String (List JValue)) :
    RunState × Except String Worksheet :=
  match ws.ref with
  | none => (initState, .error "No data range found in the first sheet.")
  | some range =>
    let res := pipelineLoop ws range oracle
    match res.2 with
    | some msg => (res.1, .error msg)
    | none => (res.1, .ok (writerStep ws res.1.cache (pipelineRows ws range)))

/-- The terminal job-status update of server.js: `completed` when
`processFile` resolves, `error` when it rejects. -/
def finalStatus : Except String Worksheet → String
  | .ok _ => "completed"
  | .error _ => "error"

/-- Replacing the value stored under `k` does not disturb lookups of a
key found before or instead of `k`. -/
theorem find?_map_replace_ne (c : Cache) (k k2 : String) (v : JValue) (h : k2 ≠ k) :
    (c.map fun p => if p.1 == k then (k, v) else p).find? (fun p => p.1 == k2)
      = c.find? (fun p => p.1 == k2) := by
  induction c with
  | nil => rfl
  | cons a c ih =>
    simp only [List.map_cons, List.find?_cons]
    by_cases hak : a.1 = k
    · rw [if_pos (beq_iff_eq.mpr hak)]
      have h1 : ((k, v).1 == k2) = false := by
        simp only [beq_eq_false_iff_ne]
        exact fun hh => h hh.symm
      have h2 : (a.1 == k2) = false := by
        simp only [beq_eq_false_iff_ne, hak]
        exact fun hh => h hh.symm
      rw [h1, h2]
      exact ih
    · rw [if_neg (by simp only [beq_iff_eq]; exact hak)]
      cases hb : (a.1 == k2)
      · exact ih
      · rfl

/-- Looking up `k` after the in-place replacement of its entry. -/
theorem find?_map_replace_eq (c : Cache) (k : String) (v : JValue) :
    (c.map fun p => if p.1 == k then (k, v) else p).find? (fun p => p.1 == k)
      = (c.find? (fun p => p.1 == k)).map fun _ => (k, v) := by
  induction c with
  | nil => rfl
  | cons a c ih =>
    simp only [List.map_cons, List.find?_cons]
    by_cases hak : a.1 = k
    · rw [if_pos (beq_iff_eq.mpr hak), beq_iff_eq.mpr hak]
      simp
    · rw [if_neg (by simp only [beq_iff_eq]; exact hak),
        beq_eq_false_iff_ne.mpr hak]
      exact ih

/-- Reading the cache after `cache[k] = v`: the written key reads back
`v`, every other key is untouched. -/
theorem getk_setk (c : Cache) (k k2 : String) (v : JValue) :
    getk (setk c k v) k2 = if k2 = k then some v else getk c k2 := by
  unfold getk setk
  by_cases hf : (c.find? (fun p => p.1 == k)).isSome
  · rw [if_pos hf]
    by_cases hk : k2 = k
    · subst hk
      rw [find?_map_replace_eq]
      obtain ⟨p, hp⟩ := Option.isSome_iff_exists.mp hf
      simp [hp]
    · rw [find?_map_replace_ne c k k2 v hk, if_neg hk]
  · rw [if_neg hf, List.find?_append]
    by_cases hk : k2 = k
    · subst hk
      rw [Option.not_isSome_iff_eq_none.mp hf]
      simp
    · have h1 : (List.find? (fun p => p.1 == k2) [(k, v)]) = none := by
        rw [List.find?_eq_none]
        intro x hx
        simp only [List.mem_singleton] at hx
        subst hx
        simp only [beq_iff_eq]
        exact fun hh => hk hh.symm
      rw [h1, if_neg hk]
      cases c.find? (fun p => p.1 == k2) <;> rfl

/-- `setk` never removes a key: the keys after a write are the old keys,
with `k` appended when it was absent. -/
theorem keys_setk (c : Cache) (k : String) (v : JValue) :
    (setk c k v).map Prod.fst
      = if (c.find? (fun p => p.1 == k)).isSome then c.map Prod.fst
        else c.map Prod.fst ++ [k] := by
  unfold setk
  by_cases hf : (c.find? (fun p => p.1 == k)).isSome
  · rw [if_pos hf, if_pos hf, List.map_map]
    refine List.map_congr_left fun p _ => ?_
    by_cases hp : p.1 = k <;> simp [hp]
  · rw [if_neg hf, if_neg hf]
    simp

/-- A write preserves distinctness of the cache keys. -/
theorem keysNodup_setk (c : Cache) (k : String) (v : JValue)
    (h : (c.map Prod.fst).Nodup) : ((setk c k v).map Prod.fst).Nodup := by
  rw [keys_setk]
  by_cases hf : (c.find? (fun p => p.1 == k)).isSome
  · rwa [if_pos hf]
  · rw [if_neg hf]
    have hk : k ∉ c.map Prod.fst := by
      intro hmem
      obtain ⟨p, hp, hpk⟩ := List.mem_map.mp hmem
      have := List.find?_eq_none.mp (Option.not_isSome_iff_eq_none.mp hf) p hp
      simp [hpk] at this
    simp [List.nodup_append, h, hk]

/-- Membership after a `Set.add`. -/
theorem mem_insertUnique (acc : List String) (a s : String) :
    s ∈ insertUnique acc a ↔ s ∈ acc ∨ s = a := by
  unfold insertUnique
  by_cases h : a ∈ acc
  · rw [if_pos h]
    constructor
    · exact Or.inl
    · rintro (hs | rfl) <;> [exact hs; exact h]
  · rw [if_neg h]
    simp

/-- A `Set.add` keeps the element list duplicate-free. -/
theorem nodup_insertUnique (acc : List String) (a : String) (h : acc.Nodup) :
    (insertUnique acc a).Nodup := by
  unfold insertUnique
  by_cases ha : a ∈ acc
  · rwa [if_pos ha]
  · rw [if_neg ha]
    simp [List.nodup_append, h, ha]

/-- The fold building `uniqueTexts` collects exactly the originals of
the rows, on top of what the accumulator already held. -/
theorem mem_foldl_insertUnique (rows : List RowT) :
    ∀ (acc : List String) (s : String),
      s ∈ rows.foldl (fun acc it => insertUnique acc it.original) acc
        ↔ s ∈ acc ∨ s ∈ rows.map RowT.original := by
  induction rows with
  | nil => simp
  | cons it rows ih =>
    intro acc s
    simp only [List.foldl_cons, List.map_cons, List.mem_cons]
    rw [ih, mem_insertUnique]
    tauto

/-- The fold building `uniqueTexts` keeps the list duplicate-free. -/
theorem nodup_foldl_insertUnique (rows : List RowT) :
    ∀ acc : List String, acc.Nodup →
      (rows.foldl (fun acc it => insertUnique acc it.original) acc).Nodup := by
  induction rows with
  | nil => exact fun acc h => h
  | cons it rows ih =>
    intro acc h
    exact ih _ (nodup_insertUnique acc it.original h)

/-- A string is a unique text exactly when it is the original of some
Translatable Row. -/
theorem mem_uniqueList (rows : List RowT) (s : String) :
    s ∈ uniqueList rows ↔ s ∈ rows.map RowT.original := by
  unfold uniqueList
  rw [mem_foldl_insertUnique]
  simp

/-- The unique-text list is duplicate-free. -/
theorem nodup_uniqueList (rows : List RowT) : (uniqueList rows).Nodup :=
  nodup_foldl_insertUnique rows [] List.nodup_nil

/-- The rounded percentage is monotone in the processed count. -/
theorem progressOf_mono {p q : Nat} (n : Nat) (h : p ≤ q) :
    progressOf p n ≤ progressOf q n := by
  unfold progressOf
  exact Nat.div_le_div_right (by omega)

/-- Once all `n ≥ 1` unique strings are processed the rounded
percentage is exactly 100. -/
theorem progressOf_self {n : Nat} (h : 1 ≤ n) : progressOf n n = 100 := by
  unfold progressOf
  have : 200 * n + n = n * 201 := by ring
  rw [this, show 2 * n = n * 2 by ring, Nat.mul_div_mul_left 201 2 h]

/-- Reading the cache after the failed-batch assignment loop
(`batch.forEach(original => cache[original] = "")`): batch members read
back the empty string, everything else is untouched. -/
theorem getk_foldl_setk_empty (b : List String) :
    ∀ (c : Cache) (s : String),
      getk (b.foldl (fun c s => setk c s (.str "")) c) s
        = if s ∈ b then some (.str "") else getk c s := by
  induction b with
  | nil => intro c s; simp
  | cons a b ih =>
    intro c s
    simp only [List.foldl_cons]
    rw [ih]
    by_cases hsb : s ∈ b
    · simp [hsb]
    · by_cases hsa : s = a
      · simp [hsb, hsa, getk_setk]
      · simp [hsb, hsa, getk_setk]

/-- The failed-batch assignment loop keeps the cache keys distinct. -/
theorem keysNodup_foldl_setk_empty (b : List String) :
    ∀ c : Cache, (c.map Prod.fst).Nodup →
      ((b.foldl (fun c s => setk c s (.str "")) c).map Prod.fst).Nodup := by
  induction b with
  | nil => exact fun c h => h
  | cons a b ih =>
    intro c h
    exact ih _ (keysNodup_setk c a _ h)

/-- After a cache update that did not throw, a key is present exactly
when it was present before or is a trimmed key of some processed entry. -/
theorem updateCache_isSome (es : List JValue) :
    ∀ (c c2 : Cache), updateCache c es = (c2, none) →
      ∀ s, (getk c2 s).isSome
        ↔ ((getk c s).isSome ∨ s ∈ es.filterMap keyTrim) := by
  induction es with
  | nil =>
    intro c c2 h s
    simp only [updateCache] at h
    cases h
    simp
  | cons e es ih =>
    intro c c2 h s
    simp only [updateCache] at h
    cases hk : keyTrim e with
    | some k =>
      rw [hk] at h
      rw [ih _ _ h s, getk_setk]
      simp only [List.filterMap_cons, hk, List.mem_cons]
      by_cases hsk : s = k
      · simp [hsk]
      · simp [hsk]
    | none =>
      rw [hk] at h
      cases h

/-- A batch entry whose `key` is not a string makes the cache update
throw. -/
theorem updateCache_err (es : List JValue) :
    ∀ c : Cache, (∃ e ∈ es, keyTrim e = none) →
      ∃ c2 msg, updateCache c es = (c2, some msg) := by
  induction es with
  | nil => simp
  | cons e es ih =>
    intro c h
    simp only [updateCache]
    cases hk : keyTrim e with
    | none => exact ⟨c, _, rfl⟩
    | some k =>
      obtain ⟨e2, he2, hbad⟩ := h
      rcases List.mem_cons.mp he2 with rfl | hmem
      · rw [hk] at hbad
        cases hbad
      · exact ih _ ⟨e2, hmem, hbad⟩

/-- The cache update keeps the cache keys distinct, whether or not it
throws. -/
theorem keysNodup_updateCache (es : List JValue) :
    ∀ c : Cache, (c.map Prod.fst).Nodup →
      ((updateCache c es).1.map Prod.fst).Nodup := by
  induction es with
  | nil => exact fun c h => h
  | cons e es ih =>
    intro c h
    simp only [updateCache]
    cases hk : keyTrim e with
    | some k => exact ih _ (keysNodup_setk c k _ h)
    | none => exact h

/-- Modelled from the amended invariant: the strings that acquire a
cache entry during the batch loop — a failed batch contributes all its
own strings, a successful batch contributes exactly the trimmed keys
its returned array contains. -/
def coveredKeys (oracle : Nat → Except String (List JValue)) :
    List (Nat × List String) → List String
  | [] => []
  | (i, b) :: rest =>
    (match oracle i with
     | .error _ => b
     | .ok entries => entries.filterMap keyTrim) ++ coveredKeys oracle rest

/-- In a loop run that no error escaped, one request was issued per
batch, in order. -/
theorem processBatches_requests (oracle : Nat → Except String (List JValue)) (n : Nat)
    (cs : List (Nat × List String)) :
    ∀ st, (processBatches oracle n cs st).2 = none →
      (processBatches oracle n cs st).1.requests = st.requests ++ cs.map Prod.snd := by
  induction cs with
  | nil => intro st _; simp [processBatches]
  | cons p rest ih =>
    obtain ⟨i, b⟩ := p
    intro st h
    cases ho : oracle i with
    | error msg =>
      simp only [processBatches, ho] at h ⊢
      rw [ih _ h]
      simp
    | ok entries =>
      rcases hup : updateCache st.cache entries with ⟨c2, err⟩
      cases err with
      | some msg =>
        simp only [processBatches, ho, hup] at h
        exact Option.noConfusion h
      | none =>
        simp only [processBatches, ho, hup] at h ⊢
        rw [ih _ h]
        simp

/-- In a loop run that no error escaped, the reported progress values
are exactly one value per successful batch, in order:
`round(100 * min(n, i + batchSize) / n)` for the batch starting at `i`;
failed batches contribute nothing. -/
theorem processBatches_updates (oracle : Nat → Except String (List JValue)) (n : Nat)
    (cs : List (Nat × List String)) :
    ∀ st, (processBatches oracle n cs st).2 = none →
      (processBatches oracle n cs st).1.updates
        = st.updates ++ cs.filterMap (fun p =>
            match oracle p.1 with
            | .ok _ => some (progressOf (min n (p.1 + batchSize)) n)
            | .error _ => none) := by
  induction cs with
  | nil => intro st _; simp [processBatches]
  | cons p rest ih =>
    obtain ⟨i, b⟩ := p
    intro st h
    cases ho : oracle i with
    | error msg =>
      simp only [processBatches, ho] at h ⊢
      rw [ih _ h]
      simp [List.filterMap_cons, ho]
    | ok entries =>
      rcases hup : updateCache st.cache entries with ⟨c2, err⟩
      cases err with
      | some msg =>
        simp only [processBatches, ho, hup] at h
        exact Option.noConfusion h
      | none =>
        simp only [processBatches, ho, hup] at h ⊢
        rw [ih _ h]
        simp [List.filterMap_cons, ho]

/-- In a loop run that no error escaped, a string holds a cache entry
at the end exactly when it held one at the start or is covered by some
batch (member of a failed batch, or trimmed returned key of a
successful one). -/
theorem processBatches_cache_isSome (oracle : Nat → Except String (List JValue)) (n : Nat)
    (cs : List (Nat × List String)) :
    ∀ st, (processBatches oracle n cs st).2 = none →
      ∀ s, (getk (processBatches oracle n cs st).1.cache s).isSome
        ↔ ((getk st.cache s).isSome ∨ s ∈ coveredKeys oracle cs) := by
  induction cs with
  | nil => intro st _ s; simp [processBatches, coveredKeys]
  | cons p rest ih =>
    obtain ⟨i, b⟩ := p
    intro st h s
    cases ho : oracle i with
    | error msg =>
      simp only [processBatches, ho] at h ⊢
      rw [ih _ h s]
      simp only [coveredKeys, ho, List.mem_append]
      rw [getk_foldl_setk_empty]
      by_cases hsb : s ∈ b
      · simp [hsb]
      · simp [hsb]
    | ok entries =>
      rcases hup : updateCache st.cache entries with ⟨c2, err⟩
      cases err with
      | some msg =>
        simp only [processBatches, ho, hup] at h
        exact Option.noConfusion h
      | none =>
        simp only [processBatches, ho, hup] at h ⊢
        rw [ih _ h s, updateCache_isSome entries st.cache c2 hup s]
        simp only [coveredKeys, ho, List.mem_append]
        tauto

/-- The whole batch loop keeps the cache keys distinct, whether or not
an error escapes it. -/
theorem processBatches_keysNodup (oracle : Nat → Except String (List JValue)) (n : Nat)
    (cs : List (Nat × List String)) :
    ∀ st, (st.cache.map Prod.fst).Nodup →
      ((processBatches oracle n cs st).1.cache.map Prod.fst).Nodup := by
  induction cs with
  | nil => intro st h; simpa [processBatches] using h
  | cons p rest ih =>
    obtain ⟨i, b⟩ := p
    intro st h
    cases ho : oracle i with
    | error msg =>
      simp only [processBatches, ho]
      exact ih _ (keysNodup_foldl_setk_empty b st.cache h)
    | ok entries =>
      rcases hup : updateCache st.cache entries with ⟨c2, err⟩
      have hc2 : (c2.map Prod.fst).Nodup := by
        have := keysNodup_updateCache entries st.cache h
        rwa [hup] at this
      cases err with
      | some msg =>
        simp only [processBatches, ho, hup]
        exact hc2
      | none =>
        simp only [processBatches, ho, hup]
        exact ih _ hc2

/-- The slicing loop on an empty list emits nothing. -/
theorem chunksFromGo_nil (fuel i : Nat) : chunksFromGo fuel [] i = [] := by
  cases fuel <;> simp [chunksFromGo]

/-- With enough fuel, concatenating the emitted batches gives back the
sliced list: the batches partition the unique texts. -/
theorem chunksFromGo_flatten :
    ∀ (fuel : Nat) (l : List String) (i : Nat), l.length ≤ fuel →
      ((chunksFromGo fuel l i).map Prod.snd).flatten = l := by
  intro fuel
  induction fuel with
  | zero =>
    intro l i h
    have hl : l = [] := List.length_eq_zero.mp (Nat.le_zero.mp h)
    subst hl
    rfl
  | succ fuel ih =>
    intro l i h
    by_cases hl : l = []
    · subst hl
      rfl
    · simp only [chunksFromGo, if_neg hl, List.map_cons, List.flatten_cons]
      rw [ih (l.drop batchSize) (i + batchSize) ?hfuel]
      · exact List.take_append_drop batchSize l
      case hfuel =>
        have hlen : 1 ≤ l.length := by
          cases l with
          | nil => exact absurd rfl hl
          | cons a t => simp
        simp only [List.length_drop, batchSize]
        omega

/-- The batches partition the unique texts. -/
theorem chunksFrom_flatten (l : List String) (i : Nat) :
    ((chunksFrom l i).map Prod.snd).flatten = l :=
  chunksFromGo_flatten l.length l i le_rfl

/-- Every emitted start index is at least the loop counter. -/
theorem chunksFromGo_fst_ge :
    ∀ (fuel : Nat) (l : List String) (i : Nat),
      ∀ p ∈ chunksFromGo fuel l i, i ≤ p.1 := by
  intro fuel
  induction fuel with
  | zero => intro l i p hp; cases hp
  | succ fuel ih =>
    intro l i p hp
    by_cases hl : l = []
    · subst hl
      cases hp
    · simp only [chunksFromGo, if_neg hl, List.mem_cons] at hp
      rcases hp with rfl | hp
    
      · exact le_rfl
      · have := ih (l.drop batchSize) (i + batchSize) p hp
        omega

/-- The emitted start indices are strictly increasing. -/
theorem chunksFromGo_pairwise :
    ∀ (fuel : Nat) (l : List String) (i : Nat),
      List.Pairwise (fun a b => a.1 < b.1) (chunksFromGo fuel l i) := by
  intro fuel
  induction fuel with
  | zero => intro l i; exact List.Pairwise.nil
  | succ fuel ih =>
    intro l i
    by_cases hl : l = []
    · subst hl
      exact List.Pairwise.nil
    · simp only [chunksFromGo, if_neg hl]
      refine List.Pairwise.cons (fun p hp => ?_) (ih _ _)
      have h1 := chunksFromGo_fst_ge fuel (l.drop batchSize) (i + batchSize) p hp
      have h2 : 1 ≤ batchSize := by decide
      omega

/-- The start indices of the batches of one run are strictly
increasing. -/
theorem chunksFrom_pairwise (l : List String) (i : Nat) :
    List.Pairwise (fun a b => a.1 < b.1) (chunksFrom l i) :=
  chunksFromGo_pairwise l.length l i

/-- With enough fuel, a non-empty list yields a final batch whose start
index is within `batchSize` of the end of the list: the final batch
completes the unique texts. -/
theorem chunksFromGo_getLast :
    ∀ (fuel : Nat) (l : List String) (i : Nat), l.length ≤ fuel → l ≠ [] →
      ∃ j b, (chunksFromGo fuel l i).getLast? = some (j, b)
        ∧ i + l.length ≤ j + batchSize := by
  intro fuel
  induction fuel with
  | zero =>
    intro l i h hl
    exact absurd (List.length_eq_zero.mp (Nat.le_zero.mp h)) hl
  | succ fuel ih =>
    intro l i h hl
    simp only [chunksFromGo, if_neg hl]
    by_cases hrest : l.drop batchSize = []
    · have hshort : l.length ≤ batchSize := List.drop_eq_nil_iff_le.mp hrest
      rw [hrest, chunksFromGo_nil]
      exact ⟨i, l.take batchSize, rfl, by omega⟩
    · have hlong : batchSize < l.length := by
        by_contra hc
        exact hrest (List.drop_eq_nil_iff_le.mpr (by omega))
      have hfuel : (l.drop batchSize).length ≤ fuel := by
        simp only [List.length_drop, batchSize] at *
        omega
      obtain ⟨j, b, hlast, hle⟩ := ih (l.drop batchSize) (i + batchSize) hfuel hrest
      refine ⟨j, b, ?_, ?_⟩
      · have hne : chunksFromGo fuel (l.drop batchSize) (i + batchSize) ≠ [] := by
          intro hnil
          rw [hnil] at hlast
          cases hlast
        cases hcs : chunksFromGo fuel (l.drop batchSize) (i + batchSize) with
        | nil => exact absurd hcs hne
        | cons q qs =>
          rw [List.getLast?_cons_cons]
          rw [hcs] at hlast
          exact hlast
      · simp only [List.length_drop] at hle
        omega

/-- The final batch of a non-empty unique list ends at or past the last
unique string. -/
theorem chunksFrom_getLast (l : List String) (hl : l ≠ []) :
    ∃ j b, (chunksFrom l 0).getLast? = some (j, b) ∧ l.length ≤ j + batchSize := by
  obtain ⟨j, b, h1, h2⟩ := chunksFromGo_getLast l.length l 0 le_rfl hl
  exact ⟨j, b, h1, by omega⟩

/-- The Row Extractor contract as the specification states it, for one
row: a row qualifies only if the cell at the source column exists, is
of text type, and its trimmed value is non-empty; a qualifying row
yields one Translatable Row. -/
def qualifyingRow (ws : Worksheet) (src tgt r : Nat) : Option RowT :=
  match getCell ws src r with
  | some cell =>
    match cell.v with
    | .str s =>
      if cell.t = "s" ∧ jsTrim s ≠ "" then
        some { row := r, original := jsTrim s, targetColIndex := tgt }
      else none
    | _ => none
  | none => none

/-- The Row Extractor contract as the specification states it, for a
sheet: visit every row from the row after the header to the last
declared row, in order, and keep exactly the qualifying ones. -/
def rowsSpec (ws : Worksheet) (range : Range) (src tgt : Nat) : List RowT :=
  (List.range' (range.sr + 1) (range.er + 1 - (range.sr + 1))).filterMap
    (qualifyingRow ws src tgt)

/-- One iteration of the collection loop yields the qualifying row, if
any. -/
theorem collectRow_eq_toList (ws : Worksheet) (src tgt r : Nat) :
    collectRow ws src tgt r = (qualifyingRow ws src tgt r).toList := by
  unfold collectRow qualifyingRow
  cases getCell ws src r with
  | none => rfl
  | some cell =>
    obtain ⟨t, v⟩ := cell
    cases v with
    | str s =>
      dsimp only
      by_cases h : t = "s" ∧ jsTrim s ≠ ""
      · rw [if_pos h, if_pos h]
        rfl
      · rw [if_neg h, if_neg h]
        rfl
    | num n => rfl
    | jbool b => rfl
    | null => rfl
    | undefined => rfl
    | arr elems => rfl
    | obj fields => rfl

/-- The collection loop visits exactly the row indices of its range, in
order, keeping the qualifying rows. -/
theorem collectRowsGo_eq_filterMap (ws : Worksheet) (src tgt : Nat) :
    ∀ (n r : Nat), collectRowsGo ws src tgt n r
      = (List.range' r n).filterMap (qualifyingRow ws src tgt) := by
  intro n
  induction n with
  | zero => intro r; rfl
  | succ n ih =>
    intro r
    rw [List.range'_succ]
    simp only [collectRowsGo, List.filterMap_cons]
    rw [collectRow_eq_toList, ih]
    cases qualifyingRow ws src tgt r <;> simp

/-- A qualifying row keeps the index of the row it came from. -/
theorem qualifyingRow_row (ws : Worksheet) (src tgt r : Nat) (it : RowT)
    (h : qualifyingRow ws src tgt r = some it) : it.row = r := by
  unfold qualifyingRow at h
  cases hget : getCell ws src r with
  | none =>
    rw [hget] at h
    cases h
  | some cell =>
    rw [hget] at h
    obtain ⟨t, v⟩ := cell
    cases v with
    | str s =>
      dsimp only at h
      by_cases hq : t = "s" ∧ jsTrim s ≠ ""
      · rw [if_pos hq] at h
        cases h
        rfl
      · rw [if_neg hq] at h
        cases h
    | num n => exact Option.noConfusion h
    | jbool b => exact Option.noConfusion h
    | null => exact Option.noConfusion h
    | undefined => exact Option.noConfusion h
    | arr elems => exact Option.noConfusion h
    | obj fields => exact Option.noConfusion h

/-- The collected Translatable Rows have strictly increasing row
indices: one row of the sheet yields at most one Translatable Row, and
sheet order is preserved. -/
theorem pairwise_row_lt_collectRows (ws : Worksheet) (range : Range) (src tgt : Nat) :
    List.Pairwise (fun a b => a.row < b.row) (collectRows ws range src tgt) := by
  rw [collectRows, collectRowsGo_eq_filterMap, List.pairwise_filterMap]
  refine List.Pairwise.imp ?_ (List.pairwise_lt_range' _ _ 1)
  intro a b hab x hx y hy
  rw [qualifyingRow_row ws src tgt a x hx, qualifyingRow_row ws src tgt b y hy]
  exact hab

/-- A single write never touches the declared data range. -/
theorem writeCell_ref (ws : Worksheet) (it : RowT) : (writeCell ws it).ref = ws.ref :=
  rfl

/-- The writer never touches the declared data range. -/
theorem writeRows_ref (rows : List RowT) :
    ∀ ws : Worksheet, (writeRows ws rows).ref = ws.ref := by
  induction rows with
  | nil => intro ws; rfl
  | cons it rest ih =>
    intro ws
    show (writeRows (writeCell ws it) rest).ref = ws.ref
    rw [ih (writeCell ws it)]
    rfl

/-- Pointwise description of the writer: a cell holds the value of the
last row written to it, and is otherwise untouched. -/
theorem writeRows_cells (rows : List RowT) :
    ∀ (ws : Worksheet) (c r : Nat),
      (writeRows ws rows).cells c r
        = match rows.reverse.find? (fun it => decide (c = it.targetColIndex ∧ r = it.row)) with
          | some it => some ⟨"s", jsOr it.translated⟩
          | none => ws.cells c r := by
  induction rows with
  | nil => intro ws c r; rfl
  | cons it rest ih =>
    intro ws c r
    show (writeRows (writeCell ws it) rest).cells c r = _
    rw [ih (writeCell ws it) c r, List.reverse_cons, List.find?_append]
    cases hfind : rest.reverse.find? (fun x => decide (c = x.targetColIndex ∧ r = x.row)) with
    | some it2 => rfl
    | none =>
      by_cases hit : c = it.targetColIndex ∧ r = it.row
      · have h1 : List.find? (fun x => decide (c = x.targetColIndex ∧ r = x.row)) [it]
            = some it := by
          simp [List.find?, hit]
        rw [h1]
        show (if c = it.targetColIndex ∧ r = it.row then _ else _) = _
        rw [if_pos hit]
        rfl
      · have h1 : List.find? (fun x => decide (c = x.targetColIndex ∧ r = x.row)) [it]
            = none := by
          simp [List.find?, hit]
        rw [h1]
        show (if c = it.targetColIndex ∧ r = it.row then _ else _) = _
        rw [if_neg hit]
        rfl

/-- Among rows with pairwise distinct row indices, the last-writer
lookup for a member row finds exactly that row. -/
theorem find?_reverse_of_mem (rows : List RowT) (it : RowT)
    (hnd : List.Pairwise (fun a b => a.row ≠ b.row) rows) (hmem : it ∈ rows) :
    rows.reverse.find?
        (fun x => decide (it.targetColIndex = x.targetColIndex ∧ it.row = x.row))
      = some it := by
  induction rows with
  | nil => cases hmem
  | cons a rest ih =>
    rw [List.reverse_cons, List.find?_append]
    rcases List.mem_cons.mp hmem with rfl | hmem2
    · have hnone : rest.reverse.find?
          (fun x => decide (it.targetColIndex = x.targetColIndex ∧ it.row = x.row)) = none := by
        rw [List.find?_eq_none]
        intro x hx
        have hxr : it.row ≠ x.row :=
          (List.pairwise_cons.mp hnd).1 x (List.mem_reverse.mp hx)
        simp only [decide_eq_true_eq]
        rintro ⟨h1, h2⟩
        exact hxr h2
      rw [hnone]
      simp [List.find?]
    · rw [ih (List.pairwise_cons.mp hnd).2 hmem2]
      rfl

/-- The target cell of a collected row (rows having pairwise distinct
row indices) ends up holding exactly the text-typed value
`(cache[original] || "") || ""`. -/
theorem writerStep_cells_of_mem (ws : Worksheet) (cache : Cache) (rows : List RowT)
    (hnd : List.Pairwise (fun a b => a.row ≠ b.row) rows) (it : RowT) (hmem : it ∈ rows) :
    (writerStep ws cache rows).cells it.targetColIndex it.row
      = some ⟨"s", jsOr (jsOr ((getk cache it.original).getD .undefined))⟩ := by
  unfold writerStep
  rw [writeRows_cells]
  have hnd2 : List.Pairwise (fun a b => a.row ≠ b.row) (assignTranslations cache rows) := by
    unfold assignTranslations
    rw [List.pairwise_map]
    exact hnd
  have hmem2 : ({ it with translated := jsOr ((getk cache it.original).getD .undefined) } : RowT)
      ∈ assignTranslations cache rows := by
    unfold assignTranslations
    exact List.mem_map.mpr ⟨it, hmem, rfl⟩
  have hfind := find?_reverse_of_mem (assignTranslations cache rows)
    { it with translated := jsOr ((getk cache it.original).getD .undefined) } hnd2 hmem2
  rw [hfind]

/-- With a declared data range, the observable state of the whole
pipeline is the observable state of its batch loop. -/
theorem runPipeline_fst (ws : Worksheet) (oracle : Nat → Except String (List JValue))
    (range : Range) (h : ws.ref = some range) :
    (runPipeline ws oracle).1 = (pipelineLoop ws range oracle).1 := by
  unfold runPipeline
  rw [h]
  cases hres : (pipelineLoop ws range oracle).2 with
  | none => simp [hres]
  | some msg => simp [hres]

/-- A successful pipeline outcome means no error escaped the batch
loop, and the result sheet is the writer step applied to the loop's
final cache. -/
theorem runPipeline_ok (ws : Worksheet) (oracle : Nat → Except String (List JValue))
    (range : Range) (ws2 : Worksheet) (h : ws.ref = some range)
    (hok : (runPipeline ws oracle).2 = .ok ws2) :
    (pipelineLoop ws range oracle).2 = none
      ∧ ws2 = writerStep ws (pipelineLoop ws range oracle).1.cache (pipelineRows ws range) := by
  unfold runPipeline at hok
  rw [h] at hok
  cases hres : (pipelineLoop ws range oracle).2 with
  | some msg =>
    simp only [hres] at hok
    exact Except.noConfusion hok
  | none =>
    simp only [hres] at hok
    exact ⟨rfl, (Except.ok.injEq _ _).mp hok |>.symm⟩

/-- During the batch loop the reported progress values stay sorted:
each new report, computed at a strictly larger start index, is at least
every earlier one. -/
theorem processBatches_updates_pairwise (oracle : Nat → Except String (List JValue)) (n : Nat) :
    ∀ (cs : List (Nat × List String)) (st : RunState),
      List.Pairwise (fun a b => a.1 < b.1) cs →
      List.Pairwise (· ≤ ·) st.updates →
      (∀ u ∈ st.updates, ∀ p ∈ cs, u ≤ progressOf (min n (p.1 + batchSize)) n) →
      List.Pairwise (· ≤ ·) (processBatches oracle n cs st).1.updates := by
  intro cs
  induction cs with
  | nil =>
    intro st _ h2 _
    simpa [processBatches] using h2
  | cons p rest ih =>
    obtain ⟨i, b⟩ := p
    intro st hcs hst hbound
    have hcs' := List.pairwise_cons.mp hcs
    cases ho : oracle i with
    | error msg =>
      simp only [processBatches, ho]
      refine ih _ hcs'.2 hst ?_
      intro u hu p hp
      exact hbound u hu p (List.mem_cons_of_mem _ hp)
    | ok entries =>
      rcases hup : updateCache st.cache entries with ⟨c2, err⟩
      cases err with
      | some msg =>
        simp only [processBatches, ho, hup]
        exact hst
      | none =>
        simp only [processBatches, ho, hup]
        refine ih _ hcs'.2 ?_ ?_
        · rw [List.pairwise_append]
          refine ⟨hst, List.pairwise_singleton _ _, ?_⟩
          intro u hu v hv
          simp only [List.mem_singleton] at hv
          subst hv
          exact hbound u hu (i, b) (List.mem_cons_self _ _)
        · intro u hu p hp
          rcases List.mem_append.mp hu with hu1 | hu2
          · exact hbound u hu1 p (List.mem_cons_of_mem _ hp)
          · simp only [List.mem_singleton] at hu2
            subst hu2
            refine progressOf_mono n ?_
            have hip : i < p.1 := hcs'.1 p hp
            exact min_le_min le_rfl (by omega)

/-- One loop iteration on a failed batch: assign empty strings and
continue; no progress is reported. -/
theorem processBatches_cons_error (oracle : Nat → Except String (List JValue))
    (n i : Nat) (b : List String) (rest : List (Nat × List String)) (st : RunState)
    (msg : String) (ho : oracle i = .error msg) :
    processBatches oracle n ((i, b) :: rest) st
      = processBatches oracle n rest
          { st with requests := st.requests ++ [b]
                    cache := b.foldl (fun c s => setk c s (.str "")) st.cache } := by
  simp only [processBatches, ho]

/-- One loop iteration on a successful batch whose cache update does
not throw: update the cache, report progress, continue. -/
theorem processBatches_cons_ok (oracle : Nat → Except String (List JValue))
    (n i : Nat) (b : List String) (rest : List (Nat × List String)) (st : RunState)
    (es : List JValue) (c2 : Cache) (ho : oracle i = .ok es)
    (hup : updateCache st.cache es = (c2, none)) :
    processBatches oracle n ((i, b) :: rest) st
      = processBatches oracle n rest
          { requests := st.requests ++ [b]
            cache := c2
            updates := st.updates ++ [progressOf (min n (i + batchSize)) n] } := by
  simp only [processBatches, ho, hup]

/-- One loop iteration on a successful batch whose cache update throws:
the loop aborts at once, carrying the error; the remaining batches are
never requested and no further progress is reported. -/
theorem processBatches_cons_throw (oracle : Nat → Except String (List JValue))
    (n i : Nat) (b : List String) (rest : List (Nat × List String)) (st : RunState)
    (es : List JValue) (c2 : Cache) (msg : String) (ho : oracle i = .ok es)
    (hup : updateCache st.cache es = (c2, some msg)) :
    processBatches oracle n ((i, b) :: rest) st
      = ({ requests := st.requests ++ [b], cache := c2, updates := st.updates }, some msg) := by
  simp only [processBatches, ho, hup]

/-- When no error escapes the loop and the final batch's translation
succeeds, the last reported progress value is the one computed for the
final batch. -/
theorem processBatches_getLast_updates (oracle : Nat → Except String (List JValue)) (n : Nat) :
    ∀ (cs : List (Nat × List String)) (st : RunState),
      (processBatches oracle n cs st).2 = none →
      ∀ j bl, cs.getLast? = some (j, bl) →
      ∀ es, oracle j = .ok es →
      (processBatches oracle n cs st).1.updates.getLast?
        = some (progressOf (min n (j + batchSize)) n) := by
  intro cs
  induction cs with
  | nil =>
    intro st _ j bl hlast
    cases hlast
  | cons p rest ih =>
    obtain ⟨i, b⟩ := p
    intro st hnone j bl hlast es hok
    cases rest with
    | nil =>
      simp only [List.getLast?_singleton, Option.some.injEq, Prod.mk.injEq] at hlast
      obtain ⟨h1, h2⟩ := hlast
      subst h1
      subst h2
      rcases hup : updateCache st.cache es with ⟨c2, err⟩
      cases err with
      | some msg =>
        simp only [processBatches, hok, hup] at hnone
        exact Option.noConfusion hnone
      | none =>
        simp only [processBatches, hok, hup]
        exact List.getLast?_concat _
    | cons q qs =>
      rw [List.getLast?_cons_cons] at hlast
      cases ho : oracle i with
      | error msg =>
        rw [processBatches_cons_error oracle n i b (q :: qs) st msg ho] at hnone ⊢
        exact ih _ hnone j bl hlast es hok
      | ok entries =>
        rcases hup : updateCache st.cache entries with ⟨c2, err⟩
        cases err with
        | some msg =>
          rw [processBatches_cons_throw oracle n i b (q :: qs) st entries c2 msg ho hup]
            at hnone
          exact Option.noConfusion hnone
        | none =>
          rw [processBatches_cons_ok oracle n i b (q :: qs) st entries c2 ho hup] at hnone ⊢
          exact ih _ hnone j bl hlast es hok

/-- A concrete workbook: the specification's walkthrough sheet, headers
`ID`, `Field Value`, `X`, `Translated string (nb)` and three data rows
`1,Hello`, `2,Hello`, `3,Bye`. -/
def exWs : Worksheet where
  cells := fun c r =>
    match c, r with
    | 0, 0 => some ⟨"s", .str "ID"⟩
    | 1, 0 => some ⟨"s", .str "Field Value"⟩
    | 2, 0 => some ⟨"s", .str "X"⟩
    | 3, 0 => some ⟨"s", .str "Translated string (nb)"⟩
    | 0, 1 => some ⟨"s", .str "1"⟩
    | 1, 1 => some ⟨"s", .str "Hello"⟩
    | 0, 2 => some ⟨"s", .str "2"⟩
    | 1, 2 => some ⟨"s", .str "Hello"⟩
    | 0, 3 => some ⟨"s", .str "3"⟩
    | 1, 3 => some ⟨"s", .str "Bye"⟩
    | _, _ => none
  ref := some ⟨0, 0, 3, 3⟩

/-- The declared range of the walkthrough sheet. -/
def exRange : Range := ⟨0, 0, 3, 3⟩

/-- A worksheet with no declared data range. -/
def noRefWs : Worksheet where
  cells := fun _ _ => none
  ref := none

/-- Oracle: the service answers every batch with the full, well-formed
translation array for the walkthrough sheet. -/
def exOracleOk : Nat → Except String (List JValue) := fun _ =>
  .ok [.obj [("key", .str "Hello"), ("value", .str "Hei")],
       .obj [("key", .str "Bye"), ("value", .str "Ha det")]]

/-- Oracle: the service call succeeds but returns an empty JSON array,
omitting every input string. -/
def exOracleEmpty : Nat → Except String (List JValue) := fun _ => .ok []

/-- Oracle: every batch fails (service error, extraction or parse
failure). -/
def exOracleFail : Nat → Except String (List JValue) := fun _ => .error "service failure"

/-- Oracle: the batch parses to an array of bare strings, so the first
entry's `key` is not a string. -/
def exOracleBadKey : Nat → Except String (List JValue) := fun _ => .ok [.str "Hei"]

/-- Exact matching as the specification states it: scan the exact
string candidates in priority order; for each, return the first header
(left to right) whose trimmed text equals the candidate
case-insensitively. -/
def exactFirst (headers : List Header) (cands : List Candidate) : Option Nat :=
  cands.findSome? fun w =>
    match w with
    | .cstr s => (headers.find? fun h => jsToLower h.text == jsToLower s).map Header.col
    | .cre _ => none

/-- Pattern matching as the specification states it: scan the pattern
candidates in priority order against the raw header text. -/
def patternFirst (headers : List Header) (cands : List Candidate) : Option Nat :=
  cands.findSome? fun w =>
    match w with
    | .cre re => (headers.find? fun h => re h.text).map Header.col
    | .cstr _ => none

/-- Every collected header's stored lower-cased form is the lower-cased
trimmed text. -/
theorem headerTexts_lower (ws : Worksheet) (range : Range) :
    ∀ h ∈ headerTexts ws range, h.lower = jsToLower h.text := by
  intro h hmem
  unfold headerTexts at hmem
  obtain ⟨c, hc, hf⟩ := List.mem_filterMap.mp hmem
  cases hget : getCell ws c range.sr with
  | none =>
    rw [hget] at hf
    cases hf
  | some cell =>
    rw [hget] at hf
    obtain ⟨t, v⟩ := cell
    cases v with
    | str s =>
      dsimp only at hf
      by_cases hq : jsTrim s = ""
      · rw [if_pos hq] at hf
        cases hf
      · rw [if_neg hq] at hf
        cases hf
        rfl
    | num n => exact Option.noConfusion hf
    | jbool b => exact Option.noConfusion hf
    | null => exact Option.noConfusion hf
    | undefined => exact Option.noConfusion hf
    | arr elems => exact Option.noConfusion hf
    | obj fields => exact Option.noConfusion hf

/-- `find?` only looks at the predicate's values on the list. -/
theorem find?_congr_mem {α : Type} (l : List α) (p q : α → Bool)
    (h : ∀ x ∈ l, p x = q x) : l.find? p = l.find? q := by
  induction l with
  | nil => rfl
  | cons a t ih =>
    simp only [List.find?_cons]
    rw [h a (List.mem_cons_self a t)]
    cases q a
    · exact ih fun x hx => h x (List.mem_cons_of_mem a hx)
    · rfl

/-- `findSome?` only looks at the function's values on the list. -/
theorem findSome?_congr_mem {α β : Type} (l : List α) (f g : α → Option β)
    (h : ∀ x ∈ l, f x = g x) : l.findSome? f = l.findSome? g := by
  induction l with
  | nil => rfl
  | cons a t ih =>
    rw [List.findSome?_cons, List.findSome?_cons, h a (List.mem_cons_self a t)]
    cases g a
    · exact ih fun x hx => h x (List.mem_cons_of_mem a hx)
    · rfl

/-- C5: for every header row and candidate lists, column resolution
returns the first header whose trimmed text equals an exact string
candidate case-insensitively, candidates in priority order; only when
no exact candidate matches are the pattern candidates tried in priority
order against the raw header text; and `resolveColumnsForSingleSheet`
falls back to the fixed zero-based defaults 1 (source) and 3 (target)
when nothing matches, so resolution never fails. -/
theorem claim_c5_column_resolution (ws : Worksheet) (cands : List Candidate) :
    (findColumnByHeader ws cands =
      match ws.ref with
      | none => none
      | some range =>
        match exactFirst (headerTexts ws range) cands with
        | some c => some c
        | none => patternFirst (headerTexts ws range) cands)
    ∧ resolveColumnsForSingleSheet ws
        = ((findColumnByHeader ws sourceCandidates).getD 1,
           (findColumnByHeader ws targetCandidates).getD 3) := by
  constructor
  · unfold findColumnByHeader exactFirst patternFirst
    cases href : ws.ref with
    | none => rfl
    | some range =>
      dsimp only
      have hcong :
          cands.findSome? (fun w =>
            match w with
            | .cstr s =>
              ((headerTexts ws range).find? (fun h => h.lower == jsToLower s)).map Header.col
            | .cre _ => none)
          = cands.findSome? (fun w =>
              match w with
              | .cstr s =>
                ((headerTexts ws range).find?
                  (fun h => jsToLower h.text == jsToLower s)).map Header.col
              | .cre _ => none) := by
        refine findSome?_congr_mem cands _ _ fun w _ => ?_
        cases w with
        | cstr s =>
          have := find?_congr_mem (headerTexts ws range)
            (fun h => h.lower == jsToLower s) (fun h => jsToLower h.text == jsToLower s)
            (fun x hx => by dsimp only; rw [headerTexts_lower ws range x hx])
          simp only [this]
        | cre re => rfl
      rw [hcong]
  · rfl

/-- C6: for every sheet range, the row extractor visits every row from
the row after the header to the last declared row and yields exactly
one Translatable Row per row whose source cell exists, is text-typed
and has non-empty trimmed value, preserving row order (the collected
row indices are strictly increasing); all other rows are skipped
without an error. -/
theorem claim_c6_row_extraction (ws : Worksheet) (range : Range) (src tgt : Nat) :
    collectRows ws range src tgt = rowsSpec ws range src tgt
    ∧ List.Pairwise (fun a b => a.row < b.row) (collectRows ws range src tgt) := by
  constructor
  · rw [collectRows, collectRowsGo_eq_filterMap]
    rfl
  · exact pairwise_row_lt_collectRows ws range src tgt

/-- C8: the writer step is idempotent — applying steps 3 and 4 twice
with the same cache and row list produces exactly the same sheet as
applying them once. -/
theorem claim_c8_writer_idempotent (ws : Worksheet) (cache : Cache) (rows : List RowT) :
    writerStep (writerStep ws cache rows) cache rows = writerStep ws cache rows := by
  apply Worksheet.ext
  · funext c r
    show (writeRows (writerStep ws cache rows) (assignTranslations cache rows)).cells c r
        = (writeRows ws (assignTranslations cache rows)).cells c r
    rw [writeRows_cells, writeRows_cells]
    cases hfind : (assignTranslations cache rows).reverse.find?
        (fun it => decide (c = it.targetColIndex ∧ r = it.row)) with
    | some it => rfl
    | none =>
      show (writerStep ws cache rows).cells c r = ws.cells c r
      unfold writerStep
      rw [writeRows_cells, hfind]
  · show (writeRows (writerStep ws cache rows) (assignTranslations cache rows)).ref
        = (writeRows ws (assignTranslations cache rows)).ref
    rw [writeRows_ref, writeRows_ref]
    unfold writerStep
    rw [writeRows_ref]

/-- C9: when the first sheet has no declared data range the pipeline
raises the missing-range error with no translation request issued and
no cell written, and the job is marked with the error status. -/
theorem claim_c9_missing_range (ws : Worksheet)
    (oracle : Nat → Except String (List JValue)) (h : ws.ref = none) :
    runPipeline ws oracle = (initState, .error "No data range found in the first sheet.")
    ∧ (runPipeline ws oracle).1.requests = []
    ∧ finalStatus (runPipeline ws oracle).2 = "error" := by
  have h1 : runPipeline ws oracle
      = (initState, .error "No data range found in the first sheet.") := by
    unfold runPipeline
    rw [h]
  refine ⟨h1, ?_, ?_⟩ <;> rw [h1] <;> rfl

/-- C9 witness: the refless sheet with the all-success oracle. -/
theorem claim_c9_missing_range_witness :
    runPipeline noRefWs exOracleOk
        = (initState, .error "No data range found in the first sheet.")
    ∧ (runPipeline noRefWs exOracleOk).1.requests = []
    ∧ finalStatus (runPipeline noRefWs exOracleOk).2 = "error" :=
  claim_c9_missing_range noRefWs exOracleOk rfl

/-- C4: a batch whose translation fails (thrown service, extraction or
parse error) assigns an empty-string cache entry to every string of
that batch, leaves every other key of the cache untouched, and the loop
continues with the remaining batches instead of aborting. -/
theorem claim_c4_batch_failure_isolated (oracle : Nat → Except String (List JValue))
    (n i : Nat) (b : List String) (rest : List (Nat × List String)) (st : RunState)
    (msg : String) (ho : oracle i = .error msg) :
    processBatches oracle n ((i, b) :: rest) st
      = processBatches oracle n rest
          { st with requests := st.requests ++ [b]
                    cache := b.foldl (fun c s => setk c s (.str "")) st.cache }
    ∧ (∀ s ∈ b, getk (b.foldl (fun c s => setk c s (.str "")) st.cache) s
        = some (.str ""))
    ∧ (∀ s, s ∉ b → getk (b.foldl (fun c s => setk c s (.str "")) st.cache) s
        = getk st.cache s) := by
  refine ⟨processBatches_cons_error oracle n i b rest st msg ho, ?_, ?_⟩
  · intro s hs
    rw [getk_foldl_setk_empty, if_pos hs]
  · intro s hs
    rw [getk_foldl_setk_empty, if_neg hs]

/-- C4 witness: a concrete two-string batch under the failing oracle;
the continuation equality, the empty entries of the batch members and
the untouched entry of an outside key all evaluate. -/
theorem claim_c4_batch_failure_isolated_witness :
    (processBatches exOracleFail 2 [(0, ["Hello", "Bye"])] initState
        = processBatches exOracleFail 2 []
            { initState with
                requests := initState.requests ++ [["Hello", "Bye"]]
                cache := ["Hello", "Bye"].foldl (fun c s => setk c s (.str "")) initState.cache })
    ∧ getk (["Hello", "Bye"].foldl (fun c s => setk c s (.str "")) initState.cache) "Hello"
        = some (.str "")
    ∧ getk (["Hello", "Bye"].foldl (fun c s => setk c s (.str "")) initState.cache) "Other"
        = getk initState.cache "Other" :=
  ⟨(claim_c4_batch_failure_isolated exOracleFail 2 0 ["Hello", "Bye"] [] initState
      "service failure" rfl).1,
   (claim_c4_batch_failure_isolated exOracleFail 2 0 ["Hello", "Bye"] [] initState
      "service failure" rfl).2.1 "Hello" (by decide),
   (claim_c4_batch_failure_isolated exOracleFail 2 0 ["Hello", "Bye"] [] initState
      "service failure" rfl).2.2 "Other" (by decide)⟩

/-- C10: a batch whose response parses to an array containing an entry
whose `key` is not a string makes the cache-update step throw: the loop
stops at that batch (no later batch is requested, no further progress
is reported), the error escapes `processFile`, and via the server's
catch handler the whole job ends in the error status rather than the
failure staying confined to that batch. -/
theorem claim_c10_bad_key_aborts_job (oracle : Nat → Except String (List JValue))
    (n i : Nat) (b : List String) (rest : List (Nat × List String)) (st : RunState)
    (es : List JValue) (e : JValue) (ho : oracle i = .ok es) (he : e ∈ es)
    (hbad : keyTrim e = none) :
    (∃ c2 msg, processBatches oracle n ((i, b) :: rest) st
        = ({ requests := st.requests ++ [b], cache := c2, updates := st.updates }, some msg))
    ∧ (∀ (ws : Worksheet) (range : Range) (msg : String), ws.ref = some range →
        (pipelineLoop ws range oracle).2 = some msg →
        finalStatus (runPipeline ws oracle).2 = "error") := by
  constructor
  · obtain ⟨c2, msg, hup⟩ := updateCache_err es st.cache ⟨e, he, hbad⟩
    exact ⟨c2, msg, processBatches_cons_throw oracle n i b rest st es c2 msg ho hup⟩
  · intro ws range msg h hsome
    unfold runPipeline
    rw [h]
    simp [hsome, finalStatus]

/-- C10 witness: the walkthrough sheet's single batch answered by an
array of bare strings; the loop result and the job status evaluate. -/
theorem claim_c10_bad_key_aborts_job_witness :
    (∃ c2 msg, processBatches exOracleBadKey 2 [(0, ["Hello", "Bye"])] initState
        = ({ requests := initState.requests ++ [["Hello", "Bye"]], cache := c2,
             updates := initState.updates }, some msg))
    ∧ (∀ (ws : Worksheet) (range : Range) (msg : String), ws.ref = some range →
        (pipelineLoop ws range exOracleBadKey).2 = some msg →
        finalStatus (runPipeline ws exOracleBadKey).2 = "error") :=
  claim_c10_bad_key_aborts_job exOracleBadKey 2 0 ["Hello", "Bye"] [] initState
    [.str "Hei"] (.str "Hei") rfl (List.mem_singleton.mpr rfl) rfl

/-- C1 counterexample: on the walkthrough sheet, a successful batch
whose returned array is empty leaves the unique string `Hello` (which
appears in the Translatable Rows) with no cache entry at all, although
the run still reaches the writer step. -/
theorem claim_c1_cache_coverage_cex :
    (runPipeline exWs exOracleEmpty).2.isOk = true
    ∧ "Hello" ∈ (pipelineRows exWs exRange).map RowT.original
    ∧ getk (runPipeline exWs exOracleEmpty).1.cache "Hello" = none := by
  exact ⟨by rfl, by decide, by rfl⟩

/-- C1 (amended): when a run reaches the writer step, the translation
cache has distinct keys (at most one entry per string) and holds an
entry for exactly the strings of failed batches together with the
trimmed keys actually returned by successful batches; a unique string
that a successful batch's response omits or renames therefore has no
entry (its rows later resolve to the empty string in the writer). -/
theorem claim_c1_cache_coverage (ws : Worksheet)
    (oracle : Nat → Except String (List JValue)) (range : Range) (ws2 : Worksheet)
    (h : ws.ref = some range) (hok : (runPipeline ws oracle).2 = .ok ws2) :
    ((runPipeline ws oracle).1.cache.map Prod.fst).Nodup
    ∧ ∀ s, (getk (runPipeline ws oracle).1.cache s).isSome
        ↔ s ∈ coveredKeys oracle (pipelineBatches ws range) := by
  obtain ⟨hnone, -⟩ := runPipeline_ok ws oracle range ws2 h hok
  rw [runPipeline_fst ws oracle range h]
  unfold pipelineLoop at hnone ⊢
  constructor
  · exact processBatches_keysNodup oracle _ _ initState (by simp [initState])
  · intro s
    rw [processBatches_cache_isSome oracle (pipelineUnique ws range).length
      (pipelineBatches ws range) initState hnone s]
    simp [initState, getk]

/-- C1 witness: the walkthrough sheet under the all-success oracle. -/
theorem claim_c1_cache_coverage_witness :
    ((runPipeline exWs exOracleOk).1.cache.map Prod.fst).Nodup
    ∧ ∀ s, (getk (runPipeline exWs exOracleOk).1.cache s).isSome
        ↔ s ∈ coveredKeys exOracleOk (pipelineBatches exWs exRange) :=
  claim_c1_cache_coverage exWs exOracleOk exRange
    (writerStep exWs (runPipeline exWs exOracleOk).1.cache (pipelineRows exWs exRange))
    rfl rfl

/-- C2 counterexample: on the walkthrough sheet with a failing service,
the single batch is requested and fails, yet no progress update at all
is reported — while the claim demands one after every batch, success or
failure. -/
theorem claim_c2_progress_reporting_cex :
    (runPipeline exWs exOracleFail).1.requests = [["Hello", "Bye"]]
    ∧ (runPipeline exWs exOracleFail).1.updates = [] := by
  exact ⟨by rfl, by rfl⟩

/-- C2 (amended): in a run that reaches the writer step, the progress
updates reported to the job-status store are exactly one per
*successful* batch, in batch order, with the value
`round(100 * min(n, i + batchSize) / n)` computed over the `n` unique
strings (not total rows); a failed batch reports nothing, because the
`continue` of the catch block skips the progress update. -/
theorem claim_c2_progress_per_successful_batch (ws : Worksheet)
    (oracle : Nat → Except String (List JValue)) (range : Range) (ws2 : Worksheet)
    (h : ws.ref = some range) (hok : (runPipeline ws oracle).2 = .ok ws2) :
    (runPipeline ws oracle).1.updates
      = (pipelineBatches ws range).filterMap (fun p =>
          match oracle p.1 with
          | .ok _ => some (progressOf
              (min (pipelineUnique ws range).length (p.1 + batchSize))
              (pipelineUnique ws range).length)
          | .error _ => none) := by
  obtain ⟨hnone, -⟩ := runPipeline_ok ws oracle range ws2 h hok
  rw [runPipeline_fst ws oracle range h]
  unfold pipelineLoop at hnone ⊢
  rw [processBatches_updates oracle _ _ initState hnone]
  rfl

/-- C2 witness: the walkthrough sheet under the all-success oracle. -/
theorem claim_c2_progress_per_successful_batch_witness :
    (runPipeline exWs exOracleOk).1.updates
      = (pipelineBatches exWs exRange).filterMap (fun p =>
          match exOracleOk p.1 with
          | .ok _ => some (progressOf
              (min (pipelineUnique exWs exRange).length (p.1 + batchSize))
              (pipelineUnique exWs exRange).length)
          | .error _ => none) :=
  claim_c2_progress_per_successful_batch exWs exOracleOk exRange
    (writerStep exWs (runPipeline exWs exOracleOk).1.cache (pipelineRows exWs exRange))
    rfl rfl

/-- C3 counterexample: a job with two unique source strings whose only
batch fails reports no progress values at all, so no value of 100 is
ever reported after the final batch. -/
theorem claim_c3_progress_final_cex :
    1 ≤ (pipelineUnique exWs exRange).length
    ∧ (runPipeline exWs exOracleFail).1.updates.getLast? ≠ some 100 :=
  ⟨by decide, fun hc => Option.noConfusion hc⟩

/-- C3 (amended): the reported progress values are always
non-decreasing; and when the run reaches the writer step and the final
batch's translation succeeded, the last reported value is exactly 100.
A run whose final batch fails reports no value after that batch. -/
theorem claim_c3_progress_monotone_final (ws : Worksheet)
    (oracle : Nat → Except String (List JValue)) (range : Range)
    (h : ws.ref = some range) :
    List.Pairwise (· ≤ ·) (runPipeline ws oracle).1.updates
    ∧ (∀ ws2, (runPipeline ws oracle).2 = .ok ws2 →
        ∀ j bl, (pipelineBatches ws range).getLast? = some (j, bl) →
        ∀ es, oracle j = .ok es →
        (runPipeline ws oracle).1.updates.getLast? = some 100) := by
  constructor
  · rw [runPipeline_fst ws oracle range h]
    unfold pipelineLoop
    refine processBatches_updates_pairwise oracle _ _ initState ?_ ?_ ?_
    · exact chunksFrom_pairwise _ 0
    · exact List.Pairwise.nil
    · intro u hu
      cases hu
  · intro ws2 hok j bl hlast es hoes
    obtain ⟨hnone, -⟩ := runPipeline_ok ws oracle range ws2 h hok
    rw [runPipeline_fst ws oracle range h]
    unfold pipelineLoop at hnone ⊢
    rw [processBatches_getLast_updates oracle (pipelineUnique ws range).length
      (pipelineBatches ws range) initState hnone j bl hlast es hoes]
    have hne : pipelineUnique ws range ≠ [] := by
      intro hnil
      rw [pipelineBatches, hnil] at hlast
      cases hlast
    obtain ⟨j2, b2, hlast2, hge⟩ := chunksFrom_getLast (pipelineUnique ws range) hne
    rw [pipelineBatches] at hlast
    rw [hlast] at hlast2
    have hj : j = j2 := congrArg Prod.fst (Option.some.inj hlast2)
    subst hj
    have hn1 : 1 ≤ (pipelineUnique ws range).length := by
      cases hul : pipelineUnique ws range with
      | nil => exact absurd hul hne
      | cons a t => simp [hul]
    rw [min_eq_left hge, progressOf_self hn1]

/-- C3 witness: the walkthrough sheet under the all-success oracle. -/
theorem claim_c3_progress_monotone_final_witness :
    List.Pairwise (· ≤ ·) (runPipeline exWs exOracleOk).1.updates
    ∧ (∀ ws2, (runPipeline exWs exOracleOk).2 = .ok ws2 →
        ∀ j bl, (pipelineBatches exWs exRange).getLast? = some (j, bl) →
        ∀ es, exOracleOk j = .ok es →
        (runPipeline exWs exOracleOk).1.updates.getLast? = some 100) :=
  claim_c3_progress_monotone_final exWs exOracleOk exRange rfl

/-- A string occurring exactly once across the concatenation of some
lists belongs to exactly one of them. -/
theorem countP_flatten_one (s : String) :
    ∀ ls : List (List String), ls.flatten.count s = 1 →
      ls.countP (fun b => decide (s ∈ b)) = 1 := by
  intro ls
  induction ls with
  | nil =>
    intro h
    simp at h
  | cons b rest ih =>
    intro h
    rw [List.flatten_cons, List.count_append] at h
    rw [List.countP_cons]
    by_cases hb : s ∈ b
    · have h1 : 0 < b.count s := List.count_pos_iff_mem.mpr hb
      have h3 : rest.countP (fun b2 => decide (s ∈ b2)) = 0 := by
        rw [List.countP_eq_zero]
        intro b2 hb2
        simp only [decide_eq_true_eq]
        intro hmem
        have h4 : 0 < (rest.flatten).count s :=
          List.count_pos_iff_mem.mpr (List.mem_flatten.mpr ⟨b2, hb2, hmem⟩)
        omega
      rw [h3]
      simp [hb]
    · have h0 : b.count s = 0 := List.count_eq_zero.mpr hb
      rw [ih (by omega)]
      simp [hb]

/-- C7: in a run that reaches the writer step, every unique source
string is contained in exactly one of the issued translation requests
(deduplication before batching), and any two Translatable Rows sharing
the same original end up with identical target-cell contents. -/
theorem claim_c7_dedup_single_request (ws : Worksheet)
    (oracle : Nat → Except String (List JValue)) (range : Range) (ws2 : Worksheet)
    (h : ws.ref = some range) (hok : (runPipeline ws oracle).2 = .ok ws2) :
    (∀ s ∈ pipelineUnique ws range,
      (runPipeline ws oracle).1.requests.countP (fun b => decide (s ∈ b)) = 1)
    ∧ (∀ it1 ∈ pipelineRows ws range, ∀ it2 ∈ pipelineRows ws range,
        it1.original = it2.original →
        ws2.cells it1.targetColIndex it1.row = ws2.cells it2.targetColIndex it2.row) := by
  obtain ⟨hnone, hws2⟩ := runPipeline_ok ws oracle range ws2 h hok
  constructor
  · intro s hs
    rw [runPipeline_fst ws oracle range h]
    unfold pipelineLoop at hnone ⊢
    rw [processBatches_requests oracle _ _ initState hnone]
    have hflat : ((pipelineBatches ws range).map Prod.snd).flatten = pipelineUnique ws range :=
      chunksFrom_flatten _ 0
    have hcount : (((pipelineBatches ws range).map Prod.snd).flatten).count s = 1 := by
      rw [hflat]
      exact List.count_eq_one_of_mem (nodup_uniqueList _) hs
    have hone := countP_flatten_one s ((pipelineBatches ws range).map Prod.snd) hcount
    simpa [initState] using hone
  · intro it1 h1 it2 h2 horig
    subst hws2
    have hnd : List.Pairwise (fun a b => a.row ≠ b.row) (pipelineRows ws range) :=
      List.Pairwise.imp (fun hlt => Nat.ne_of_lt hlt)
        (pairwise_row_lt_collectRows ws range _ _)
    rw [writerStep_cells_of_mem ws _ _ hnd it1 h1,
      writerStep_cells_of_mem ws _ _ hnd it2 h2, horig]

/-- C7 witness: the walkthrough sheet (with the duplicate `Hello`)
under the all-success oracle. -/
theorem claim_c7_dedup_single_request_witness :
    (∀ s ∈ pipelineUnique exWs exRange,
      (runPipeline exWs exOracleOk).1.requests.countP (fun b => decide (s ∈ b)) = 1)
    ∧ (∀ it1 ∈ pipelineRows exWs exRange, ∀ it2 ∈ pipelineRows exWs exRange,
        it1.original = it2.original →
        (writerStep exWs (runPipeline exWs exOracleOk).1.cache
            (pipelineRows exWs exRange)).cells it1.targetColIndex it1.row
          = (writerStep exWs (runPipeline exWs exOracleOk).1.cache
              (pipelineRows exWs exRange)).cells it2.targetColIndex it2.row) :=
  claim_c7_dedup_single_request exWs exOracleOk exRange
    (writerStep exWs (runPipeline exWs exOracleOk).1.cache (pipelineRows exWs exRange))
    rfl rfl
